import Mathlib

/-!
# Verification of the AOF rewrite coordinator (`persistence/aof.go`)

Shallow embedding of the status parser (`getPersistenceInfo` and the line loops
around it), of the per-poll decision of the readiness gate (`canNext`) and of the
fleet scheduler (`canWriteAof`, `CheckCanWriteAof`) as an interleaving step
relation, followed by the theorems about them.

Conventions.
* A Go `string` is a `List Char` (the sequence of its code points).
* `int64` values are mathematical integers; every arithmetic operation is
  followed by an explicit two's-complement wrap.  Go's `int` is 32 or 64 bits
  wide depending on the target, so the width of `int` is a parameter `intBits`.
* A Go function returning `error` returns an `Option NumError` next to the
  (possibly updated) state: the source mutates `statusInfo` in place.
-/

namespace RedisAof

/-! ## Strings -/

/-- A Go string, as the list of its code points. -/
abbrev GoString := List Char

/-- Go's `unicode.IsSpace`: the Latin-1 white space characters and the code points
with the Unicode `White_Space` property. -/
def isSpace (c : Char) : Bool :=
  let n := c.toNat
  (0x09 ≤ n && n ≤ 0x0D) || n == 0x20 || n == 0x85 || n == 0xA0 || n == 0x1680 ||
  (0x2000 ≤ n && n ≤ 0x200A) || n == 0x2028 || n == 0x2029 || n == 0x202F ||
  n == 0x205F || n == 0x3000

/-- Go's `strings.TrimLeftFunc(s, unicode.IsSpace)`. -/
def trimLeft (s : GoString) : GoString := s.dropWhile isSpace

/-- Go's `strings.TrimRightFunc(s, unicode.IsSpace)`. -/
def trimRight (s : GoString) : GoString := (s.reverse.dropWhile isSpace).reverse

/-- Go's `strings.TrimSpace`: leading and trailing white space removed. -/
def TrimSpace (s : GoString) : GoString := trimRight (trimLeft s)

/-- Go's `strings.Split(s, sep)` for a one-character separator: the pieces of `s`
between the occurrences of `sep`; one piece more than there are separators. -/
def Split (sep : Char) : GoString → List GoString
  | [] => [[]]
  | c :: cs =>
    if c = sep then [] :: Split sep cs
    else match Split sep cs with
      | [] => [[c]]
      | hd :: tl => (c :: hd) :: tl

/-- The error value of `strconv`: the failing function and its input. -/
structure NumError where
  fn : String
  num : GoString
deriving DecidableEq, Repr

/-- Go's `strconv.ParseBool`: exactly twelve literals are accepted. -/
def ParseBool (str : GoString) : Except NumError Bool :=
  if str = "1".toList ∨ str = "t".toList ∨ str = "T".toList ∨ str = "true".toList ∨
     str = "TRUE".toList ∨ str = "True".toList then .ok true
  else if str = "0".toList ∨ str = "f".toList ∨ str = "F".toList ∨ str = "false".toList ∨
     str = "FALSE".toList ∨ str = "False".toList then .ok false
  else .error ⟨"ParseBool", str⟩

/-- A decimal digit. -/
def isDigit (c : Char) : Bool := 48 ≤ c.toNat && c.toNat ≤ 57

/-- Value of a string of decimal digits, most significant first. -/
def digitsValue (ds : GoString) : Nat :=
  ds.foldl (fun acc c => 10 * acc + (c.toNat - 48)) 0

/-- The part of `strconv.ParseInt(s, 10, 64)` after the sign: `body` must be one or
more decimal digits (`ParseUint`), and the value must fit: below `2^63` without a
minus sign, at most `2^63` with one.  `s0` is the whole input, for the error. -/
def parseMagnitude (neg : Bool) (body s0 : GoString) : Except NumError Int :=
  if body = [] ∨ body.all isDigit = false then .error ⟨"ParseInt", s0⟩
  else if neg = false ∧ digitsValue body ≥ 2 ^ 63 then .error ⟨"ParseInt", s0⟩
  else if neg = true ∧ digitsValue body > 2 ^ 63 then .error ⟨"ParseInt", s0⟩
  else .ok (if neg then -(digitsValue body : Int) else (digitsValue body : Int))

/-- Go's `strconv.ParseInt(s, 10, 64)`: the empty string is an error; a leading `+`
or `-` is picked off; the rest is parsed as an unsigned decimal number and checked
against the range of `int64`. -/
def ParseInt (s : GoString) : Except NumError Int :=
  match s with
  | [] => .error ⟨"ParseInt", s⟩
  | c :: rest =>
    if c = '+' then parseMagnitude false rest s
    else if c = '-' then parseMagnitude true rest s
    else parseMagnitude false s s

/-! ## The status parser -/

/-- The snapshot `PersistenceInfo` of `aof.go`. -/
structure PersistenceInfo where
  RdbBgsaveInProgress : Bool := false
  RdbCurrentBgsaveTimeSec : Int := 0
  AofEnabled : Bool := false
  AofRewriteInProgress : Bool := false
  AofRewriteScheduled : Bool := false
  AofCurrentRewriteTimeSec : Int := 0
  AofCurrentSize : Int := 0
  AofBaseSize : Int := 0
deriving DecidableEq, Repr

/-- Assignment of a parsed boolean, or the parse error with the state untouched. -/
def setBool (s : PersistenceInfo) (v : GoString)
    (upd : PersistenceInfo → Bool → PersistenceInfo) : PersistenceInfo × Option NumError :=
  match ParseBool v with
  | .error e => (s, some e)
  | .ok b => (upd s b, none)

/-- Assignment of a parsed integer, or the parse error with the state untouched. -/
def setInt (s : PersistenceInfo) (v : GoString)
    (upd : PersistenceInfo → Int → PersistenceInfo) : PersistenceInfo × Option NumError :=
  match ParseInt v with
  | .error e => (s, some e)
  | .ok n => (upd s n, none)

/-- The `switch statusKey` of `getPersistenceInfo`: eight cases, no `default`. -/
def statusSwitch (statusInfo : PersistenceInfo) (statusKey statusValue : GoString) :
    PersistenceInfo × Option NumError :=
  if statusKey = "rdb_bgsave_in_progress".toList then
    setBool statusInfo statusValue (fun s b => { s with RdbBgsaveInProgress := b })
  else if statusKey = "rdb_current_bgsave_time_sec".toList then
    setInt statusInfo statusValue (fun s n => { s with RdbCurrentBgsaveTimeSec := n })
  else if statusKey = "aof_enabled".toList then
    setBool statusInfo statusValue (fun s b => { s with AofEnabled := b })
  else if statusKey = "aof_rewrite_in_progress".toList then
    setBool statusInfo statusValue (fun s b => { s with AofRewriteInProgress := b })
  else if statusKey = "aof_rewrite_scheduled".toList then
    setBool statusInfo statusValue (fun s b => { s with AofRewriteScheduled := b })
  else if statusKey = "aof_current_rewrite_time_sec".toList then
    setInt statusInfo statusValue (fun s n => { s with AofCurrentRewriteTimeSec := n })
  else if statusKey = "aof_current_size".toList then
    setInt statusInfo statusValue (fun s n => { s with AofCurrentSize := n })
  else if statusKey = "aof_base_size".toList then
    setInt statusInfo statusValue (fun s n => { s with AofBaseSize := n })
  else (statusInfo, none)

/-- The method `AOF.getPersistenceInfo`: one status line applied to the snapshot.  The result
is the snapshot after the call and the returned error (`none` is Go's `nil`).
Fewer than two pieces after the split at `:` return `nil`; otherwise the first
piece is the key and the second piece the value. -/
def getPersistenceInfo (statusInfo : PersistenceInfo) (info : GoString) :
    PersistenceInfo × Option NumError :=
  match Split ':' (TrimSpace info) with
  | statusKey :: statusValue :: _ => statusSwitch statusInfo statusKey statusValue
  | _ => (statusInfo, none)

/-- The loop `for _, persistenceInfo := range infos` of `canWriteAof` and `canNext`:
the lines are applied in order and the first error ends the loop. -/
def parseLines (statusInfo : PersistenceInfo) : List GoString → PersistenceInfo × Option NumError
  | [] => (statusInfo, none)
  | l :: ls =>
    match getPersistenceInfo statusInfo l with
    | (s, some e) => (s, some e)
    | (s, none) => parseLines s ls

/-- The lines of a status text: `strings.Split(strings.TrimSpace(info), "\n")`. -/
def statusLines (info : GoString) : List GoString := Split '\n' (TrimSpace info)

/-- Parse of a whole status text, as both callers do it: a fresh snapshot
`&PersistenceInfo{}` and the line loop over `statusLines`. -/
def parseStatus (info : GoString) : PersistenceInfo × Option NumError :=
  parseLines {} (statusLines info)

/-! ## Machine integers -/

/-- Two's-complement wrap of a mathematical integer to a signed `bits`-bit value. -/
def wrap (bits : Nat) (x : Int) : Int :=
  (x + 2 ^ (bits - 1)) % 2 ^ bits - 2 ^ (bits - 1)

/-- The range of `int64`. -/
def isInt64 (x : Int) : Prop := -2 ^ 63 ≤ x ∧ x < 2 ^ 63

instance (x : Int) : Decidable (isInt64 x) := by unfold isInt64; infer_instance

/-- Subtraction of `int64`, wrapping. -/
def sub64 (a b : Int) : Int := wrap 64 (a - b)

/-- Division of `int64`: the quotient truncated toward zero; a zero divisor is a
run-time panic (`none`). -/
def div64 (a b : Int) : Option Int :=
  if b = 0 then none else some (wrap 64 (Int.tdiv a b))

/-- The conversion `int(x)` of an `int64` to an `int` of `intBits` bits. -/
def toInt (intBits : Nat) (x : Int) : Int := wrap intBits x

/-- Multiplication of `int`, wrapping. -/
def mulInt (intBits : Nat) (a b : Int) : Int := wrap intBits (a * b)

/-! ## The readiness gate: one poll of `canNext` -/

/-- The constant `growRate` of `aof.go`. -/
def growRate : Int := 75

/-- What the status query `client.Info("persistence").Result()` returned. -/
inductive QueryResult
  | failed
  | text (info : GoString)
deriving DecidableEq, Repr

/-- What the non-blocking receive on `aof.Finish` observes in a `select`. -/
inductive FinishObs
  | closed
  | value
  | empty
deriving DecidableEq, Repr

/-- How one iteration of the loop of `canNext` ends. -/
inductive GateOutcome
  /-- The channel `Finish` is closed: `return` without a send on `IsNext`. -/
  | stopped
  /-- A value was received on `Finish`: next iteration, nothing polled. -/
  | skipped
  /-- The branch `aof.IsNext <- struct{}{}; return`. -/
  | clear
  /-- The iteration ends in `time.Sleep`; `trigger` tells whether
  `client.BgRewriteAOF()` was called. -/
  | stay (trigger : Bool)
deriving DecidableEq, Repr

/-- The expression `int((AofCurrentSize-AofBaseSize)/AofBaseSize) * 100` of `canNext`;
`none` is the panic of an integer division by zero. -/
def growthRate (intBits : Nat) (s : PersistenceInfo) : Option Int :=
  match div64 (sub64 s.AofCurrentSize s.AofBaseSize) s.AofBaseSize with
  | none => none
  | some q => some (mulInt intBits (toInt intBits q) 100)

/-- The decision of `canNext` on a parsed snapshot (lines 129 to 151); `none` is a
run-time panic. -/
def gateDecision (intBits : Nat) (statusInfo : PersistenceInfo) : Option GateOutcome :=
  let inprocess := (!statusInfo.RdbBgsaveInProgress) && (!statusInfo.AofRewriteInProgress)
  if inprocess && (!statusInfo.AofRewriteScheduled) then some .clear
  else if inprocess && statusInfo.AofRewriteScheduled then
    let isBgSave : Bool := statusInfo.AofBaseSize == 0
    if !isBgSave then
      match growthRate intBits statusInfo with
      | none => none
      | some rate => some (.stay (decide (rate > growRate)))
    else some (.stay isBgSave)
  else some (.stay false)

/-- The `default` branch of the `select` of `canNext`: query, parse, decide. -/
def canNextPoll (intBits : Nat) (r : QueryResult) : Option GateOutcome :=
  match r with
  | .failed => some .clear
  | .text info =>
    match parseStatus info with
    | (_, some _) => some .clear
    | (statusInfo, none) => gateDecision intBits statusInfo

/-- One iteration of the loop of `canNext`: the `select` on `Finish`, then the poll. -/
def canNextIter (intBits : Nat) (fin : FinishObs) (r : QueryResult) : Option GateOutcome :=
  match fin with
  | .closed => some .stopped
  | .value => some .skipped
  | .empty => canNextPoll intBits r

/-- Whether the outcome of an iteration of `canNext` includes the send on `IsNext`. -/
def GateOutcome.signalsClear : GateOutcome → Bool
  | .clear => true
  | _ => false

/-- Whether the outcome of an iteration of `canNext` includes the call of
`client.BgRewriteAOF()`. -/
def GateOutcome.callsBgRewrite : GateOutcome → Bool
  | .stay true => true
  | _ => false

/-! ## The fleet scheduler and its gates, as a step relation

The scheduler goroutine runs `CheckCanWriteAof` and, inside it, `canWriteAof`; each
`go aof.canNext(...)` adds a gate goroutine.  `IsNext` is the unbuffered channel
`make(chan struct{})` of `main.go`, so a send on it completes only together with
the receive of the scheduler.  `Finish` is only ever closed (no code sends on it).
A step is one iteration of a loop of one goroutine, the close of `Finish`, or the
hand-over of a value on `IsNext`. -/

/-- How the check of one client in `canWriteAof` (lines 78 to 97) ends. -/
inductive CheckOutcome
  /-- The query or the parse failed: `return err`. -/
  | abort
  /-- The field `AofEnabled` is false: `continue`. -/
  | skip
  /-- The gate is started, `go aof.canNext(client, aof.IsNext)`, and awaited,
  `<-aof.IsNext`. -/
  | openGate
deriving DecidableEq, Repr

/-- The body of the loop of `canWriteAof` for one client, up to the test of
`AofEnabled`. -/
def canWriteAofCheck (r : QueryResult) : CheckOutcome :=
  match r with
  | .failed => .abort
  | .text info =>
    match parseStatus info with
    | (_, some _) => .abort
    | (statusInfo, none) => if !statusInfo.AofEnabled then .skip else .openGate

/-- Where the scheduler goroutine stands. -/
inductive SchedPc
  /-- At the `select` of `CheckCanWriteAof`. -/
  | select
  /-- In `canWriteAof`, at the head of the loop with the client of index `i` next. -/
  | client (i : Nat)
  /-- Blocked in `<-aof.IsNext` after starting the gate of client `i`. -/
  | waiting (i : Nat)
  /-- In `time.Sleep` after `canWriteAof` returned. -/
  | sleeping
  /-- The function `CheckCanWriteAof` has returned. -/
  | returned
deriving DecidableEq, Repr

/-- Where a gate goroutine stands. -/
inductive GatePc
  /-- At the head of the loop of `canNext`. -/
  | polling
  /-- Blocked in the send `aof.IsNext <- struct` of a clear branch. -/
  | sending
deriving DecidableEq, Repr

/-- A live gate goroutine: a call of `canNext` that has not returned. -/
structure Gate where
  client : Nat
  pc : GatePc
deriving DecidableEq, Repr

/-- The state of the whole system.  `opened` and `cleared` record, for the current
pass of `canWriteAof`, the clients whose gate was started and the clients whose
gate has signalled clear (latest first); `rewrites` records the calls of
`BgRewriteAOF`, by client. -/
structure Sys where
  finishClosed : Bool := false
  sched : SchedPc := .select
  gates : List Gate := []
  opened : List Nat := []
  cleared : List Nat := []
  rewrites : List Nat := []
deriving DecidableEq, Repr

/-- The steps of the system: the environment closes `Finish`; the scheduler takes a
step (with the answer of the status query, where it makes one); the gate at a
position of the list of gates runs one iteration (with the answer of its status
query); a gate blocked in its send hands over to the waiting scheduler. -/
inductive Action
  | closeFinish
  | sched (r : QueryResult)
  | gate (k : Nat) (r : QueryResult)
  | handoff (k : Nat)
deriving DecidableEq, Repr

/-- One step of the scheduler goroutine; `none` when it is blocked or has returned. -/
def CheckCanWriteAofStep (n : Nat) (s : Sys) (r : QueryResult) : Option Sys :=
  match s.sched with
  | .select =>
    if s.finishClosed then some { s with sched := .returned }
    else some { s with sched := .client 0, opened := [], cleared := [] }
  | .client i =>
    if i < n then
      match canWriteAofCheck r with
      | .abort => some { s with sched := .sleeping }
      | .skip => some { s with sched := .client (i + 1) }
      | .openGate =>
        some { s with sched := .waiting i, gates := s.gates ++ [⟨i, .polling⟩],
                      opened := i :: s.opened }
    else some { s with sched := .sleeping }
  | .sleeping => some { s with sched := .select }
  | .waiting _ => none
  | .returned => none

/-- One iteration of the gate at position `k`; `none` when there is no such gate,
when it is blocked in its send, or on a panic. -/
def canNextStep (intBits : Nat) (s : Sys) (k : Nat) (r : QueryResult) : Option Sys :=
  match s.gates.get? k with
  | some ⟨c, .polling⟩ =>
    match canNextIter intBits (if s.finishClosed then .closed else .empty) r with
    | none => none
    | some .stopped => some { s with gates := s.gates.eraseIdx k }
    | some .skipped => some s
    | some .clear => some { s with gates := s.gates.set k ⟨c, .sending⟩ }
    | some (.stay trigger) =>
      some { s with rewrites := if trigger then s.rewrites ++ [c] else s.rewrites }
  | _ => none

/-- The hand-over on `IsNext`: the gate at position `k` completes its send and
returns, the scheduler completes its receive and goes on to the next client. -/
def handoffStep (s : Sys) (k : Nat) : Option Sys :=
  match s.sched, s.gates.get? k with
  | .waiting i, some ⟨c, .sending⟩ =>
    some { s with sched := .client (i + 1), gates := s.gates.eraseIdx k,
                  cleared := c :: s.cleared }
  | _, _ => none

/-- The step function of the system over `n` clients. -/
def step (n intBits : Nat) (s : Sys) : Action → Option Sys
  | .closeFinish => if s.finishClosed then none else some { s with finishClosed := true }
  | .sched r => CheckCanWriteAofStep n s r
  | .gate k r => canNextStep intBits s k r
  | .handoff k => handoffStep s k

/-- Execution of a list of actions, from left to right. -/
def run (n intBits : Nat) (s : Sys) : List Action → Option Sys
  | [] => some s
  | a :: as =>
    match step n intBits s a with
    | none => none
    | some s2 => run n intBits s2 as

/-- The states reachable from the initial state (`Finish` open, the scheduler at
the `select` of `CheckCanWriteAof`, no gate). -/
inductive Reachable (n intBits : Nat) : Sys → Prop
  | init : Reachable n intBits {}
  | next (s s2 : Sys) (a : Action) : Reachable n intBits s → step n intBits s a = some s2 →
      Reachable n intBits s2

/-- The invariant behind the one-gate discipline: there is at most one live gate,
and it belongs to the client the scheduler is waiting for; the gates of a pass
were opened in increasing order of client index; when the scheduler is at the
head of the loop, every gate opened in the pass is for an earlier client and has
signalled clear; when it waits, that holds for every gate but the one waited for. -/
def Inv (s : Sys) : Prop :=
  s.gates.length ≤ 1 ∧
  (∀ g ∈ s.gates, s.sched = .waiting g.client) ∧
  s.opened.Pairwise (· > ·) ∧
  (∀ i, s.sched = .client i → ∀ j ∈ s.opened, j < i ∧ j ∈ s.cleared) ∧
  (∀ i, s.sched = .waiting i →
    ∃ rest, s.opened = i :: rest ∧ ∀ j ∈ rest, j < i ∧ j ∈ s.cleared)

/-- The state in which the gate of the first client is open and the scheduler waits
for its clear signal. -/
def waitingFirst : Sys :=
  { sched := .waiting 0, gates := [⟨0, .polling⟩], opened := [0] }

/-- The state in which the scheduler is left when `Finish` is closed while the gate
of client 0 is open. -/
def stranded : Sys :=
  { finishClosed := true, sched := .waiting 0, gates := [], opened := [0] }

/-! ## Vocabulary of the statements -/

/-- The four keys of `getPersistenceInfo` whose value goes through `ParseBool`. -/
def boolKeys : List GoString :=
  ["rdb_bgsave_in_progress".toList, "aof_enabled".toList, "aof_rewrite_in_progress".toList,
   "aof_rewrite_scheduled".toList]

/-- The four keys of `getPersistenceInfo` whose value goes through `ParseInt`. -/
def intKeys : List GoString :=
  ["rdb_current_bgsave_time_sec".toList, "aof_current_rewrite_time_sec".toList,
   "aof_current_size".toList, "aof_base_size".toList]

/-- The eight recognized keys. -/
def recognizedKeys : List GoString := boolKeys ++ intKeys

/-- The boolean literals of Go. -/
def boolLiterals : List GoString :=
  ["1".toList, "t".toList, "T".toList, "TRUE".toList, "true".toList, "True".toList,
   "0".toList, "f".toList, "F".toList, "FALSE".toList, "false".toList, "False".toList]

/-- A signed base-10 integer literal within the range of `int64`: an optional sign,
then at least one digit. -/
def isInt64Literal (v : GoString) : Prop :=
  ∃ sign ds : GoString, v = sign ++ ds ∧ (sign = [] ∨ sign = ['+'] ∨ sign = ['-']) ∧
    ds ≠ [] ∧ (∀ c ∈ ds, isDigit c = true) ∧
    isInt64 (if sign = ['-'] then -(digitsValue ds : Int) else (digitsValue ds : Int))

/-- The four integer fields of the snapshot hold `int64` values. -/
def inRange (s : PersistenceInfo) : Prop :=
  isInt64 s.RdbCurrentBgsaveTimeSec ∧ isInt64 s.AofCurrentRewriteTimeSec ∧
  isInt64 s.AofCurrentSize ∧ isInt64 s.AofBaseSize

instance (s : PersistenceInfo) : Decidable (inRange s) := by unfold inRange; infer_instance

/-- The key of a line: the text before the first `:` of the trimmed line; `none`
for a line without a colon (a blank line among them). -/
def lineKey (line : GoString) : Option GoString :=
  if ':' ∈ TrimSpace line then some ((TrimSpace line).takeWhile (· != ':')) else none

/-- All text after the first `:` of the trimmed line. -/
def lineRest (line : GoString) : GoString :=
  ((TrimSpace line).dropWhile (· != ':')).tail

/-- The text between the first and the second `:` of the trimmed line (up to the
end of the line when there is no second colon). -/
def lineValue (line : GoString) : GoString :=
  (lineRest line).takeWhile (· != ':')

/-- A line with a recognized key whose value, taken as `value`, is not a literal
of the type of the field. -/
def badLineWith (value : GoString → GoString) (line : GoString) : Prop :=
  ∃ k, lineKey line = some k ∧
    ((k ∈ boolKeys ∧ value line ∉ boolLiterals) ∨
     (k ∈ intKeys ∧ ¬ isInt64Literal (value line)))

/-- The pieces of a text with one more character that is not the separator: the
character goes to the end of the last piece. -/
def appendLast (c : Char) : List GoString → List GoString
  | [] => [[c]]
  | [x] => [x ++ [c]]
  | x :: y :: ys => x :: appendLast c (y :: ys)

/-- An idle snapshot with a rewrite scheduled and the given base and current sizes. -/
def scheduledSnapshot (base current : Int) : PersistenceInfo :=
  { AofRewriteScheduled := true, AofBaseSize := base, AofCurrentSize := current }

/-- The snapshot of the growth example: idle, a rewrite scheduled, base 100, current 176. -/
def growth76 : PersistenceInfo := scheduledSnapshot 100 176

/-! # Theorems -/

/-! ## Arithmetic of the growth rate -/

theorem wrap64_of_range (x : Int) (h1 : -2 ^ 63 ≤ x) (h2 : x < 2 ^ 63) : wrap 64 x = x := by
  unfold wrap
  norm_num at h1 h2 ⊢
  omega

theorem wrap32_of_range (x : Int) (h1 : -2 ^ 31 ≤ x) (h2 : x < 2 ^ 31) : wrap 32 x = x := by
  unfold wrap
  norm_num at h1 h2 ⊢
  omega

theorem tdiv_bounds (a b : Int) (ha : 0 ≤ a) (hb : 0 < b) :
    0 ≤ a.tdiv b ∧ a.tdiv b * b ≤ a ∧ a < (a.tdiv b + 1) * b := by
  refine ⟨Int.tdiv_nonneg ha (le_of_lt hb), ?_, Int.lt_tdiv_add_one_mul_self a hb⟩
  rw [Int.tdiv_eq_ediv ha (le_of_lt hb)]
  exact Int.ediv_mul_le a (ne_of_gt hb)

theorem tdiv_of_neg (a b : Int) : a.tdiv b = -((-a).tdiv b) := by
  rw [Int.neg_tdiv, neg_neg]

/-- The quotient of a difference `d` with `-(b + 1) ≤ d < 0` by `b > 0` is `0`, `-1` or `-2`. -/
theorem tdiv_small_neg (d b : Int) (hb : 0 < b) (h1 : -(b + 1) ≤ d) (h2 : d < 0) :
    -2 ≤ d.tdiv b ∧ d.tdiv b ≤ 0 := by
  obtain ⟨q0, q1, _⟩ := tdiv_bounds (-d) b (by omega) hb
  rw [tdiv_of_neg]
  refine ⟨?_, by omega⟩
  by_contra hlt
  have h3 : 3 ≤ (-d).tdiv b := by omega
  have h4 : 3 * b ≤ (-d).tdiv b * b := Int.mul_le_mul_of_nonneg_right h3 (le_of_lt hb)
  omega

/-- The quotient of a non-negative difference is at least one exactly from `b` on. -/
theorem one_le_tdiv_iff (d b : Int) (hd : 0 ≤ d) (hb : 0 < b) : 1 ≤ d.tdiv b ↔ b ≤ d := by
  obtain ⟨q0, q1, q2⟩ := tdiv_bounds d b hd hb
  constructor
  · intro h
    have : 1 * b ≤ d.tdiv b * b := Int.mul_le_mul_of_nonneg_right h (le_of_lt hb)
    omega
  · intro h
    by_contra hlt
    have h0 : d.tdiv b = 0 := by omega
    rw [h0] at q2
    omega

theorem tdiv_le_self_of_nonneg (d b : Int) (hd : 0 ≤ d) (hb : 0 < b) : d.tdiv b ≤ d := by
  obtain ⟨q0, q1, _⟩ := tdiv_bounds d b hd hb
  have : d.tdiv b * 1 ≤ d.tdiv b * b := Int.mul_le_mul_of_nonneg_left (by omega) q0
  omega

/-- With a 64-bit `int`, a positive base and a current size in `[-1, 92233720368547758]`
nothing wraps: the rate is one hundred times the truncated quotient. -/
theorem growthRate_exact (s : PersistenceInfo)
    (hb0 : 0 < s.AofBaseSize) (hb1 : s.AofBaseSize < 2 ^ 63)
    (hc0 : -1 ≤ s.AofCurrentSize) (hc1 : s.AofCurrentSize ≤ 92233720368547758) :
    growthRate 64 s = some (100 * (s.AofCurrentSize - s.AofBaseSize).tdiv s.AofBaseSize) := by
  have hsub : sub64 s.AofCurrentSize s.AofBaseSize = s.AofCurrentSize - s.AofBaseSize := by
    unfold sub64
    apply wrap64_of_range <;> norm_num at hb1 ⊢ <;> omega
  have hq : -2 ≤ (s.AofCurrentSize - s.AofBaseSize).tdiv s.AofBaseSize ∧
      (s.AofCurrentSize - s.AofBaseSize).tdiv s.AofBaseSize ≤ 92233720368547758 := by
    rcases lt_or_le (s.AofCurrentSize - s.AofBaseSize) 0 with hneg | hpos
    · have := tdiv_small_neg _ _ hb0 (by omega) hneg
      omega
    · have := tdiv_le_self_of_nonneg _ _ hpos hb0
      have := (tdiv_bounds _ _ hpos hb0).1
      omega
  unfold growthRate div64
  rw [hsub, if_neg (by omega)]
  simp only [toInt, mulInt]
  have hw1 := wrap64_of_range ((s.AofCurrentSize - s.AofBaseSize).tdiv s.AofBaseSize)
    (by norm_num; omega) (by norm_num; omega)
  have hw2 := wrap64_of_range ((s.AofCurrentSize - s.AofBaseSize).tdiv s.AofBaseSize * 100)
    (by norm_num; omega) (by norm_num; omega)
  rw [hw1, hw1, hw2, mul_comm]


/-- With a 32-bit `int`, a positive base and a current size in `[-1, 21474836]`
nothing wraps either: the quotient fits the `int` and so does its hundredfold. -/
theorem growthRate_exact32 (s : PersistenceInfo)
    (hb0 : 0 < s.AofBaseSize) (hb1 : s.AofBaseSize < 2 ^ 63)
    (hc0 : -1 ≤ s.AofCurrentSize) (hc1 : s.AofCurrentSize ≤ 21474836) :
    growthRate 32 s = some (100 * (s.AofCurrentSize - s.AofBaseSize).tdiv s.AofBaseSize) := by
  have hsub : sub64 s.AofCurrentSize s.AofBaseSize = s.AofCurrentSize - s.AofBaseSize := by
    unfold sub64
    apply wrap64_of_range <;> norm_num at hb1 ⊢ <;> omega
  have hq : -2 ≤ (s.AofCurrentSize - s.AofBaseSize).tdiv s.AofBaseSize ∧
      (s.AofCurrentSize - s.AofBaseSize).tdiv s.AofBaseSize ≤ 21474836 := by
    rcases lt_or_le (s.AofCurrentSize - s.AofBaseSize) 0 with hneg | hpos
    · have := tdiv_small_neg _ _ hb0 (by omega) hneg
      omega
    · have := tdiv_le_self_of_nonneg _ _ hpos hb0
      have := (tdiv_bounds _ _ hpos hb0).1
      omega
  unfold growthRate div64
  rw [hsub, if_neg (by omega)]
  simp only [toInt, mulInt]
  have hw1 := wrap64_of_range ((s.AofCurrentSize - s.AofBaseSize).tdiv s.AofBaseSize)
    (by norm_num; omega) (by norm_num; omega)
  have hw2 := wrap32_of_range ((s.AofCurrentSize - s.AofBaseSize).tdiv s.AofBaseSize)
    (by norm_num; omega) (by norm_num; omega)
  have hw3 := wrap32_of_range ((s.AofCurrentSize - s.AofBaseSize).tdiv s.AofBaseSize * 100)
    (by norm_num; omega) (by norm_num; omega)
  rw [hw1, hw2, hw3, mul_comm]

/-- When the log shrank (down to a current size of `-1`), the quotient is `0`, `-1`
or `-2` and the rate is its hundredfold, for a 32-bit and for a 64-bit `int`. -/
theorem growthRate_shrunk (intBits : Nat) (hw : intBits = 32 ∨ intBits = 64) (s : PersistenceInfo)
    (hb0 : 0 < s.AofBaseSize) (hb1 : s.AofBaseSize < 2 ^ 63)
    (hc0 : -1 ≤ s.AofCurrentSize) (hc1 : s.AofCurrentSize < s.AofBaseSize) :
    ∃ q : Int, -2 ≤ q ∧ q ≤ 0 ∧ growthRate intBits s = some (100 * q) := by
  have hsub : sub64 s.AofCurrentSize s.AofBaseSize = s.AofCurrentSize - s.AofBaseSize := by
    unfold sub64
    apply wrap64_of_range <;> norm_num at hb1 ⊢ <;> omega
  obtain ⟨hq1, hq2⟩ := tdiv_small_neg (s.AofCurrentSize - s.AofBaseSize) s.AofBaseSize hb0
    (by omega) (by omega)
  refine ⟨(s.AofCurrentSize - s.AofBaseSize).tdiv s.AofBaseSize, hq1, hq2, ?_⟩
  have hw1 := wrap64_of_range ((s.AofCurrentSize - s.AofBaseSize).tdiv s.AofBaseSize)
    (by norm_num; omega) (by norm_num; omega)
  unfold growthRate div64
  rw [hsub, if_neg (by omega)]
  simp only [toInt, mulInt]
  rw [hw1]
  rcases hw with rfl | rfl
  · have hw2 := wrap32_of_range ((s.AofCurrentSize - s.AofBaseSize).tdiv s.AofBaseSize)
      (by norm_num; omega) (by norm_num; omega)
    have hw3 := wrap32_of_range ((s.AofCurrentSize - s.AofBaseSize).tdiv s.AofBaseSize * 100)
      (by norm_num; omega) (by norm_num; omega)
    rw [hw2, hw3, mul_comm]
  · have hw3 := wrap64_of_range ((s.AofCurrentSize - s.AofBaseSize).tdiv s.AofBaseSize * 100)
      (by norm_num; omega) (by norm_num; omega)
    rw [hw1, hw3, mul_comm]

/-- The decision on an idle snapshot with a rewrite scheduled and a non-zero base:
`BgRewriteAOF` is called exactly when the rate exceeds `growRate`. -/
theorem gateDecision_of_rate (intBits : Nat) (s : PersistenceInfo) (rate : Int)
    (h1 : s.RdbBgsaveInProgress = false) (h2 : s.AofRewriteInProgress = false)
    (h3 : s.AofRewriteScheduled = true) (hb : s.AofBaseSize ≠ 0)
    (hr : growthRate intBits s = some rate) :
    gateDecision intBits s = some (.stay (decide (rate > growRate))) := by
  simp [gateDecision, h1, h2, h3, hb, hr]

/-! ## The growth-rate trigger -/

/-- C1, evaluated on the code: on the idle, rewrite-scheduled snapshot with base size
100 and current size 176 (here also as parsed from a status text) the quotient is
taken before the multiplication, so the computed rate is 0 and not 76, and the
poll ends without a call of `BgRewriteAOF`, for a 32-bit and for a 64-bit `int`. -/
theorem growth_76_percent_does_not_fire :
    parseStatus "aof_rewrite_scheduled:1\naof_base_size:100\naof_current_size:176".toList
      = (growth76, none) ∧
    growthRate 64 growth76 = some 0 ∧ growthRate 32 growth76 = some 0 ∧
    gateDecision 64 growth76 = some (.stay false) ∧
    gateDecision 32 growth76 = some (.stay false) ∧
    canNextPoll 64
      (.text "aof_rewrite_scheduled:1\naof_base_size:100\naof_current_size:176".toList)
      = some (.stay false) := by
  decide

/-- C2: for every status text that parses to an idle snapshot with a rewrite
scheduled and base size 0, whatever the current size and the width of `int`,
the poll calls `BgRewriteAOF` and keeps polling; the division is not evaluated
(evaluated on this snapshot it would panic, the poll does not). -/
theorem zero_base_always_fires (intBits : Nat) (info : GoString) (s : PersistenceInfo)
    (hp : parseStatus info = (s, none))
    (h1 : s.RdbBgsaveInProgress = false) (h2 : s.AofRewriteInProgress = false)
    (h3 : s.AofRewriteScheduled = true) (hb : s.AofBaseSize = 0) :
    canNextPoll intBits (.text info) = some (.stay true) ∧
    gateDecision intBits s = some (.stay true) ∧
    growthRate intBits s = none := by
  have hd : gateDecision intBits s = some (.stay true) := by
    simp [gateDecision, h1, h2, h3, hb]
  refine ⟨?_, hd, ?_⟩
  · simp [canNextPoll, hp, hd]
  · simp [growthRate, div64, hb]

/-- Witness of C2: a status text with a scheduled rewrite, no base size and current
size 5. -/
theorem zero_base_always_fires_witness :
    canNextPoll 64 (.text "aof_rewrite_scheduled:1\naof_current_size:5".toList)
        = some (.stay true) ∧
    gateDecision 64 (scheduledSnapshot 0 5) = some (.stay true) ∧
    growthRate 64 (scheduledSnapshot 0 5) = none :=
  zero_base_always_fires 64 "aof_rewrite_scheduled:1\naof_current_size:5".toList
    (scheduledSnapshot 0 5) (by decide) rfl rfl rfl rfl

/-- C3 as stated fails: base size `2^63 - 1` and current size `-2` are both `int64`
values a status text can carry, the log "shrank", yet the subtraction wraps to
`2^63 - 1`, the rate is 100 and `BgRewriteAOF` is called. -/
theorem shrunk_log_can_fire :
    parseStatus
      "aof_rewrite_scheduled:1\naof_base_size:9223372036854775807\naof_current_size:-2".toList
      = ((scheduledSnapshot 9223372036854775807 (-2)), none) ∧
    (0 : Int) < 9223372036854775807 ∧ (-2 : Int) < 9223372036854775807 ∧
    isInt64 9223372036854775807 ∧ isInt64 (-2) ∧
    growthRate 64 (scheduledSnapshot 9223372036854775807 (-2)) = some 100 ∧
    gateDecision 64 (scheduledSnapshot 9223372036854775807 (-2)) = some (.stay true) := by
  decide

/-- C3, amended: on an idle snapshot with a rewrite scheduled, a base size
`0 < base < 2^63` and a current size `-1 ≤ current < base` (every non-negative
size below the base), the computed rate is at most 0, so not greater than 75,
and the poll does not call `BgRewriteAOF`; for a 32-bit and for a 64-bit `int`. -/
theorem shrunk_log_never_fires (intBits : Nat) (hw : intBits = 32 ∨ intBits = 64)
    (s : PersistenceInfo)
    (h1 : s.RdbBgsaveInProgress = false) (h2 : s.AofRewriteInProgress = false)
    (h3 : s.AofRewriteScheduled = true)
    (hb0 : 0 < s.AofBaseSize) (hb1 : s.AofBaseSize < 2 ^ 63)
    (hc0 : -1 ≤ s.AofCurrentSize) (hc1 : s.AofCurrentSize < s.AofBaseSize) :
    (∃ rate : Int, growthRate intBits s = some rate ∧ rate ≤ 0 ∧ ¬ rate > growRate) ∧
    gateDecision intBits s = some (.stay false) := by
  obtain ⟨q, hq1, hq2, hr⟩ := growthRate_shrunk intBits hw s hb0 hb1 hc0 hc1
  have hg : ¬ (100 * q > growRate) := by unfold growRate; omega
  refine ⟨⟨100 * q, hr, by omega, hg⟩, ?_⟩
  rw [gateDecision_of_rate intBits s (100 * q) h1 h2 h3 (by omega) hr]
  simp [hg]

/-- Witness of the amended C3: base 100, current 40. -/
theorem shrunk_log_never_fires_witness :
    (∃ rate : Int, growthRate 64 (scheduledSnapshot 100 40) = some rate ∧ rate ≤ 0 ∧
      ¬ rate > growRate) ∧
    gateDecision 64 (scheduledSnapshot 100 40) = some (.stay false) :=
  shrunk_log_never_fires 64 (Or.inr rfl)
    (scheduledSnapshot 100 40)
    rfl rfl rfl (by decide) (by decide) (by decide) (by decide)

/-- C10 as stated fails: it names no width of `int`, and with a 32-bit `int` the
snapshot with base size 1 and current size 42949673 lies within its range, has
`current ≥ 2 * base`, yet the quotient 42949672 times 100 wraps to `-96`: the rate
is not a multiple of 100 and `BgRewriteAOF` is not called. -/
theorem narrow_int_rate_wraps :
    (0 : Int) < 1 ∧ (0 : Int) ≤ 42949673 ∧ (42949673 : Int) ≤ 92233720368547758 ∧
    (42949673 : Int) ≥ 2 * 1 ∧
    growthRate 32 (scheduledSnapshot 1 42949673) = some (-96) ∧
    gateDecision 32 (scheduledSnapshot 1 42949673) = some (.stay false) ∧
    parseStatus "aof_rewrite_scheduled:1\naof_base_size:1\naof_current_size:42949673".toList
      = (scheduledSnapshot 1 42949673, none) := by
  decide

/-- C10, amended: on every idle snapshot with a rewrite scheduled, a base size
`0 < base < 2^63` and a current size `0 ≤ current` that is at most
`92233720368547758` where `int` has 64 bits, and at most `21474836` where `int` has
32 bits (so that the quotient times 100 cannot overflow the `int`), the poll calls
`BgRewriteAOF` if and only if `current ≥ 2 * base`, and the computed rate is a
multiple of 100: the effective threshold is a growth of 100%, not of 75%. -/
theorem trigger_iff_doubled (intBits : Nat) (s : PersistenceInfo)
    (h1 : s.RdbBgsaveInProgress = false) (h2 : s.AofRewriteInProgress = false)
    (h3 : s.AofRewriteScheduled = true)
    (hb0 : 0 < s.AofBaseSize) (hb1 : s.AofBaseSize < 2 ^ 63)
    (hc0 : 0 ≤ s.AofCurrentSize)
    (hc1 : (intBits = 64 ∧ s.AofCurrentSize ≤ 92233720368547758) ∨
           (intBits = 32 ∧ s.AofCurrentSize ≤ 21474836)) :
    (gateDecision intBits s = some (.stay true) ↔ s.AofCurrentSize ≥ 2 * s.AofBaseSize) ∧
    (gateDecision intBits s = some (.stay false) ↔ s.AofCurrentSize < 2 * s.AofBaseSize) ∧
    (∃ k : Int, growthRate intBits s = some (100 * k)) := by
  have hr : growthRate intBits s
      = some (100 * (s.AofCurrentSize - s.AofBaseSize).tdiv s.AofBaseSize) := by
    rcases hc1 with ⟨rfl, hc⟩ | ⟨rfl, hc⟩
    · exact growthRate_exact s hb0 hb1 (by omega) hc
    · exact growthRate_exact32 s hb0 hb1 (by omega) hc
  have hd := gateDecision_of_rate intBits s _ h1 h2 h3 (by omega) hr
  have key : 100 * (s.AofCurrentSize - s.AofBaseSize).tdiv s.AofBaseSize > growRate ↔
      s.AofCurrentSize ≥ 2 * s.AofBaseSize := by
    unfold growRate
    rcases lt_or_le (s.AofCurrentSize - s.AofBaseSize) 0 with hneg | hpos
    · have := tdiv_small_neg _ _ hb0 (by omega) hneg
      constructor <;> intro h <;> omega
    · have := one_le_tdiv_iff _ _ hpos hb0
      constructor <;> intro h <;> omega
  refine ⟨?_, ?_, ⟨_, hr⟩⟩
  · rw [hd]; simp only [Option.some.injEq, GateOutcome.stay.injEq, decide_eq_true_eq]; exact key
  · rw [hd]
    simp only [Option.some.injEq, GateOutcome.stay.injEq, decide_eq_false_iff_not]
    rw [key]; omega

/-- Witness of the amended C10: a 64-bit `int`, base 100; current 200 fires. -/
theorem trigger_iff_doubled_witness :
    (gateDecision 64 (scheduledSnapshot 100 200)
        = some (.stay true) ↔ (200 : Int) ≥ 2 * 100) ∧
    (gateDecision 64 (scheduledSnapshot 100 200)
        = some (.stay false) ↔ (200 : Int) < 2 * 100) ∧
    (∃ k : Int, growthRate 64 (scheduledSnapshot 100 200) = some (100 * k)) :=
  trigger_iff_doubled 64 (scheduledSnapshot 100 200)
    rfl rfl rfl (by decide) (by decide) (by decide) (Or.inl ⟨rfl, by decide⟩)

/-- The examples of C10: base 100 with current 175 or 199 does not fire, 200 fires,
for a 64-bit and for a 32-bit `int`. -/
theorem trigger_examples :
    gateDecision 64 (scheduledSnapshot 100 175) = some (.stay false) ∧
    gateDecision 64 (scheduledSnapshot 100 199) = some (.stay false) ∧
    gateDecision 64 (scheduledSnapshot 100 200) = some (.stay true) ∧
    gateDecision 32 (scheduledSnapshot 100 175) = some (.stay false) ∧
    gateDecision 32 (scheduledSnapshot 100 199) = some (.stay false) ∧
    gateDecision 32 (scheduledSnapshot 100 200) = some (.stay true) := by
  decide

/-! ## Splitting -/

theorem Split_ne_nil (sep : Char) (s : GoString) : Split sep s ≠ [] := by
  cases s with
  | nil => simp [Split]
  | cons c cs =>
    unfold Split
    split
    · simp
    · split <;> simp

theorem Split_cons_sep (sep : Char) (cs : GoString) :
    Split sep (sep :: cs) = [] :: Split sep cs := by
  simp [Split]

theorem Split_cons_ne (sep c : Char) (cs : GoString) (h : c ≠ sep) :
    ∃ hd tl, Split sep cs = hd :: tl ∧ Split sep (c :: cs) = (c :: hd) :: tl := by
  cases hs : Split sep cs with
  | nil => exact absurd hs (Split_ne_nil sep cs)
  | cons hd tl => exact ⟨hd, tl, rfl, by simp [Split, h, hs]⟩

/-- A text without the separator is a single piece. -/
theorem Split_of_not_mem (sep : Char) (s : GoString) (h : sep ∉ s) : Split sep s = [s] := by
  induction s with
  | nil => rfl
  | cons c cs ih =>
    have hc : c ≠ sep := fun e => h (by simp [e])
    have hcs : sep ∉ cs := fun e => h (List.mem_cons_of_mem _ e)
    simp [Split, hc, ih hcs]

/-- Splitting distributes over a separator. -/
theorem Split_append_sep (sep : Char) (a b : GoString) :
    Split sep (a ++ sep :: b) = Split sep a ++ Split sep b := by
  induction a with
  | nil => simp [Split]
  | cons c cs ih =>
    by_cases hc : c = sep
    · subst hc
      simp [Split, ih]
    · obtain ⟨hd, tl, h1, h2⟩ := Split_cons_ne sep c cs hc
      obtain ⟨hd2, tl2, h3, h4⟩ := Split_cons_ne sep c (cs ++ sep :: b) hc
      rw [ih, h1, List.cons_append, List.cons.injEq] at h3
      rw [List.cons_append, h4, h2, ← h3.1, ← h3.2, List.cons_append]

/-- The first piece is the text before the first separator. -/
theorem Split_head (sep : Char) (s : GoString) :
    ∃ tl, Split sep s = s.takeWhile (· != sep) :: tl := by
  induction s with
  | nil => exact ⟨[], rfl⟩
  | cons c cs ih =>
    by_cases hc : c = sep
    · subst hc
      exact ⟨Split c cs, by simp [Split]⟩
    · obtain ⟨tl, ht⟩ := ih
      exact ⟨tl, by simp [Split, hc, ht]⟩

theorem takeWhile_append_dropWhile_tail (sep : Char) (s : GoString) (h : sep ∈ s) :
    s = s.takeWhile (· != sep) ++ sep :: (s.dropWhile (· != sep)).tail := by
  induction s with
  | nil => simp at h
  | cons c cs ih =>
    by_cases hc : c = sep
    · subst hc
      simp
    · have hcs : sep ∈ cs := by
        rcases List.mem_cons.mp h with e | e
        · exact absurd e.symm hc
        · exact e
      have := ih hcs
      simp only [List.takeWhile_cons, List.dropWhile_cons, bne_iff_ne, ne_eq, hc,
        not_false_eq_true, decide_True, ite_true, List.cons_append]
      rw [← this]

/-- With a separator in the text, the first two pieces are the text before the first
separator and the text between the first and the second one. -/
theorem Split_two (sep : Char) (s : GoString) (h : sep ∈ s) :
    ∃ tl, Split sep s = s.takeWhile (· != sep) ::
      ((s.dropWhile (· != sep)).tail).takeWhile (· != sep) :: tl := by
  have hs := takeWhile_append_dropWhile_tail sep s h
  have hk : sep ∉ s.takeWhile (· != sep) := by
    intro hm
    have := List.mem_takeWhile_imp hm
    simp at this
  obtain ⟨tl, ht⟩ := Split_head sep (s.dropWhile (· != sep)).tail
  refine ⟨tl, ?_⟩
  conv_lhs => rw [hs]
  rw [Split_append_sep, Split_of_not_mem sep _ hk, ht]
  rfl

/-! ## One status line -/

theorem getPersistenceInfo_no_colon (s : PersistenceInfo) (line : GoString)
    (h : ':' ∉ TrimSpace line) : getPersistenceInfo s line = (s, none) := by
  simp [getPersistenceInfo, Split_of_not_mem ':' _ h]

theorem getPersistenceInfo_colon (s : PersistenceInfo) (line : GoString)
    (h : ':' ∈ TrimSpace line) :
    getPersistenceInfo s line =
      statusSwitch s ((TrimSpace line).takeWhile (· != ':')) (lineValue line) := by
  obtain ⟨tl, ht⟩ := Split_two ':' (TrimSpace line) h
  simp [getPersistenceInfo, ht, lineValue, lineRest]

theorem statusSwitch_unrecognized (s : PersistenceInfo) (k v : GoString)
    (h : k ∉ recognizedKeys) : statusSwitch s k v = (s, none) := by
  simp only [recognizedKeys, boolKeys, intKeys, List.cons_append, List.nil_append,
    List.mem_cons, List.mem_singleton, not_or, List.not_mem_nil, or_false] at h
  obtain ⟨h1, h2, h3, h4, h5, h6, h7, h8⟩ := h
  unfold statusSwitch
  rw [if_neg h1, if_neg h5, if_neg h2, if_neg h3, if_neg h4, if_neg h6, if_neg h7, if_neg h8]

/-- A line without a colon, or with a key that is not recognized, is a no-op. -/
theorem getPersistenceInfo_ignored (s : PersistenceInfo) (line : GoString)
    (h : ∀ k, lineKey line = some k → k ∉ recognizedKeys) :
    getPersistenceInfo s line = (s, none) := by
  by_cases hc : ':' ∈ TrimSpace line
  · rw [getPersistenceInfo_colon s line hc]
    exact statusSwitch_unrecognized s _ _ (h _ (by simp [lineKey, hc]))
  · exact getPersistenceInfo_no_colon s line hc

/-! ## Trimming -/

theorem TrimSpace_cons_space (c : Char) (x : GoString) (hc : isSpace c = true) :
    TrimSpace (c :: x) = TrimSpace x := by
  simp [TrimSpace, trimLeft, List.dropWhile_cons, hc]

theorem trimRight_append_space (c : Char) (y : GoString) (hc : isSpace c = true) :
    trimRight (y ++ [c]) = trimRight y := by
  simp [trimRight, List.dropWhile_cons, hc]

theorem TrimSpace_append_space (c : Char) (x : GoString) (hc : isSpace c = true) :
    TrimSpace (x ++ [c]) = TrimSpace x := by
  induction x with
  | nil => simp [TrimSpace, trimLeft, trimRight, List.dropWhile_cons, hc]
  | cons d x ih =>
    by_cases hd : isSpace d = true
    · rw [List.cons_append, TrimSpace_cons_space d _ hd, TrimSpace_cons_space d _ hd, ih]
    · have h1 : trimLeft (d :: x ++ [c]) = (d :: x) ++ [c] := by
        simp [trimLeft, List.dropWhile_cons, hd]
      have h2 : trimLeft (d :: x) = d :: x := by
        simp [trimLeft, List.dropWhile_cons, hd]
      unfold TrimSpace
      rw [h1, h2, trimRight_append_space c _ hc]

/-- The text is its right-trimmed part followed by white space only. -/
theorem trimRight_decomp (t : GoString) :
    ∃ w : GoString, (∀ c ∈ w, isSpace c = true) ∧ t = trimRight t ++ w := by
  refine ⟨(t.reverse.takeWhile isSpace).reverse, ?_, ?_⟩
  · intro c hc
    exact List.mem_takeWhile_imp (List.mem_reverse.mp hc)
  · unfold trimRight
    rw [← List.reverse_append, List.takeWhile_append_dropWhile, List.reverse_reverse]

/-! ## The line loop -/

theorem getPersistenceInfo_congr (s : PersistenceInfo) (l l2 : GoString)
    (h : TrimSpace l = TrimSpace l2) : getPersistenceInfo s l = getPersistenceInfo s l2 := by
  unfold getPersistenceInfo
  rw [h]

theorem getPersistenceInfo_nil (s : PersistenceInfo) : getPersistenceInfo s [] = (s, none) := by
  rfl

theorem parseLines_cons_noop (s : PersistenceInfo) (l : GoString) (ls : List GoString)
    (h : getPersistenceInfo s l = (s, none)) : parseLines s (l :: ls) = parseLines s ls := by
  simp [parseLines, h]

theorem parseLines_append (s : PersistenceInfo) (xs ys : List GoString) :
    parseLines s (xs ++ ys) =
      match parseLines s xs with
      | (s2, some e) => (s2, some e)
      | (s2, none) => parseLines s2 ys := by
  induction xs generalizing s with
  | nil => simp [parseLines]
  | cons l ls ih =>
    rw [List.cons_append, parseLines, parseLines]
    rcases getPersistenceInfo s l with ⟨s2, _ | e⟩
    · exact ih s2
    · rfl

/-- A no-op line may be inserted at any place of a list of lines. -/
theorem parseLines_insert_noop (l : GoString)
    (h : ∀ s, getPersistenceInfo s l = (s, none)) (s : PersistenceInfo)
    (pre post : List GoString) :
    parseLines s (pre ++ l :: post) = parseLines s (pre ++ post) := by
  rw [parseLines_append, parseLines_append]
  rcases parseLines s pre with ⟨s2, _ | e⟩
  · exact parseLines_cons_noop s2 l post (h s2)
  · rfl

theorem Split_append_single (sep c : Char) (t : GoString) (hc : c ≠ sep) :
    Split sep (t ++ [c]) = appendLast c (Split sep t) := by
  induction t with
  | nil => simp [Split, hc, appendLast]
  | cons d t ih =>
    by_cases hd : d = sep
    · subst hd
      rw [List.cons_append, Split_cons_sep, Split_cons_sep, ih]
      cases hs : Split d t with
      | nil => exact absurd hs (Split_ne_nil d t)
      | cons hd tl => simp [appendLast]
    · obtain ⟨hd1, tl1, h1, h2⟩ := Split_cons_ne sep d t hd
      obtain ⟨hd2, tl2, h3, h4⟩ := Split_cons_ne sep d (t ++ [c]) hd
      rw [List.cons_append, h4, h2]
      rw [ih, h1] at h3
      cases tl1 with
      | nil =>
        simp only [appendLast, List.cons.injEq] at h3 ⊢
        rw [← h3.1, ← h3.2]
        simp
      | cons y ys =>
        simp only [appendLast, List.cons.injEq] at h3 ⊢
        rw [← h3.1, ← h3.2]
        simp

theorem parseLines_appendLast (c : Char) (hc : isSpace c = true) (ls : List GoString)
    (hne : ls ≠ []) (s : PersistenceInfo) :
    parseLines s (appendLast c ls) = parseLines s ls := by
  induction ls generalizing s with
  | nil => exact absurd rfl hne
  | cons x xs ih =>
    cases xs with
    | nil =>
      simp only [appendLast, parseLines]
      rw [getPersistenceInfo_congr s _ _ (TrimSpace_append_space c x hc)]
    | cons y ys =>
      simp only [appendLast]
      rw [parseLines, parseLines]
      rcases getPersistenceInfo s x with ⟨s2, _ | e⟩
      · exact ih (by simp) s2
      · rfl

theorem parseLines_Split_cons_space (c : Char) (hc : isSpace c = true) (t : GoString)
    (s : PersistenceInfo) :
    parseLines s (Split '\n' (c :: t)) = parseLines s (Split '\n' t) := by
  by_cases hn : c = '\n'
  · subst hn
    rw [Split_cons_sep]
    exact parseLines_cons_noop s [] _ (getPersistenceInfo_nil s)
  · obtain ⟨hd, tl, h1, h2⟩ := Split_cons_ne '\n' c t hn
    rw [h2, h1, parseLines, parseLines,
      getPersistenceInfo_congr s _ _ (TrimSpace_cons_space c hd hc)]

theorem parseLines_Split_trimLeft (t : GoString) (s : PersistenceInfo) :
    parseLines s (Split '\n' (trimLeft t)) = parseLines s (Split '\n' t) := by
  induction t with
  | nil => rfl
  | cons c t ih =>
    by_cases hc : isSpace c = true
    · have : trimLeft (c :: t) = trimLeft t := by simp [trimLeft, List.dropWhile_cons, hc]
      rw [this, ih, parseLines_Split_cons_space c hc]
    · have : trimLeft (c :: t) = c :: t := by simp [trimLeft, List.dropWhile_cons, hc]
      rw [this]

theorem parseLines_Split_append_space (c : Char) (hc : isSpace c = true) (t : GoString)
    (s : PersistenceInfo) :
    parseLines s (Split '\n' (t ++ [c])) = parseLines s (Split '\n' t) := by
  by_cases hn : c = '\n'
  · subst hn
    rw [Split_append_sep, parseLines_append]
    rcases parseLines s (Split '\n' t) with ⟨s2, _ | e⟩
    · rfl
    · rfl
  · rw [Split_append_single '\n' c t hn]
    exact parseLines_appendLast c hc _ (Split_ne_nil _ _) s

theorem parseLines_Split_append_spaces (w : GoString) (hw : ∀ c ∈ w, isSpace c = true)
    (t : GoString) (s : PersistenceInfo) :
    parseLines s (Split '\n' (t ++ w)) = parseLines s (Split '\n' t) := by
  induction w generalizing t with
  | nil => simp
  | cons c w ih =>
    have h1 : t ++ c :: w = (t ++ [c]) ++ w := by simp
    rw [h1, ih (fun d hd => hw d (List.mem_cons_of_mem _ hd)) (t ++ [c]),
      parseLines_Split_append_space c (hw c (List.mem_cons_self _ _))]

/-- The trim of the whole text does not change what the line loop computes: the
lines it removes or shortens are trimmed again, one by one, by `getPersistenceInfo`. -/
theorem parseLines_statusLines (info : GoString) (s : PersistenceInfo) :
    parseLines s (statusLines info) = parseLines s (Split '\n' info) := by
  unfold statusLines TrimSpace
  obtain ⟨w, hw, ht⟩ := trimRight_decomp (trimLeft info)
  rw [← parseLines_Split_trimLeft info s]
  conv_rhs => rw [ht]
  rw [parseLines_Split_append_spaces w hw]

theorem parseStatus_eq_raw (info : GoString) :
    parseStatus info = parseLines {} (Split '\n' info) :=
  parseLines_statusLines info {}

/-! ## Literals accepted by `strconv` -/

theorem ParseBool_error_iff (v : GoString) :
    (∃ e, ParseBool v = .error e) ↔ v ∉ boolLiterals := by
  unfold ParseBool boolLiterals
  constructor
  · rintro ⟨e, he⟩
    split at he
    · cases he
    · split at he
      · cases he
      · simp only [List.mem_cons, List.mem_singleton, List.not_mem_nil, or_false]
        tauto
  · intro h
    simp only [List.mem_cons, List.mem_singleton, List.not_mem_nil, or_false] at h
    rw [if_neg (by tauto), if_neg (by tauto)]
    exact ⟨_, rfl⟩

theorem parseMagnitude_ok (neg : Bool) (body s0 : GoString) (n : Int)
    (h : parseMagnitude neg body s0 = .ok n) :
    body ≠ [] ∧ (∀ c ∈ body, isDigit c = true) ∧
    isInt64 (if neg then -(digitsValue body : Int) else (digitsValue body : Int)) := by
  unfold parseMagnitude at h
  by_cases h1 : body = [] ∨ body.all isDigit = false
  · rw [if_pos h1] at h; cases h
  · rw [if_neg h1] at h
    by_cases h2 : neg = false ∧ digitsValue body ≥ 2 ^ 63
    · rw [if_pos h2] at h; cases h
    · rw [if_neg h2] at h
      by_cases h3 : neg = true ∧ digitsValue body > 2 ^ 63
      · rw [if_pos h3] at h; cases h
      · simp only [not_or] at h1
        refine ⟨h1.1, ?_, ?_⟩
        · have : body.all isDigit = true := by simpa using h1.2
          exact fun c hc => List.all_eq_true.mp this c hc
        · unfold isInt64
          cases neg
          · simp only [true_and, not_le, ge_iff_le] at h2
            norm_num at h2 ⊢
            omega
          · simp only [true_and, not_lt, gt_iff_lt] at h3
            norm_num at h3 ⊢
            omega

theorem parseMagnitude_of_literal (neg : Bool) (body s0 : GoString)
    (h1 : body ≠ []) (h2 : ∀ c ∈ body, isDigit c = true)
    (h3 : isInt64 (if neg then -(digitsValue body : Int) else (digitsValue body : Int))) :
    ∃ n, parseMagnitude neg body s0 = .ok n := by
  have hall : ¬ (body.all isDigit = false) := by
    have : body.all isDigit = true := List.all_eq_true.mpr h2
    simp [this]
  unfold parseMagnitude
  rw [if_neg (by simp only [not_or]; exact ⟨h1, hall⟩)]
  unfold isInt64 at h3
  cases neg
  · rw [if_neg (by simp only [true_and, not_le, ge_iff_le]; norm_num at h3 ⊢; omega),
      if_neg (by simp)]
    exact ⟨_, rfl⟩
  · rw [if_neg (by simp),
      if_neg (by simp only [true_and, not_lt, gt_iff_lt]; norm_num at h3 ⊢; omega)]
    exact ⟨_, rfl⟩

/-- What `ParseInt` accepts is a signed decimal literal in the range of `int64`. -/
theorem ParseInt_ok_isLiteral (v : GoString) (n : Int) (h : ParseInt v = .ok n) :
    isInt64Literal v := by
  cases v with
  | nil => simp [ParseInt] at h
  | cons c rest =>
    simp only [ParseInt] at h
    by_cases hp : c = '+'
    · rw [if_pos hp] at h
      obtain ⟨a1, a2, a3⟩ := parseMagnitude_ok _ _ _ _ h
      exact ⟨['+'], rest, by simp [hp], Or.inr (Or.inl rfl), a1, a2, by simpa using a3⟩
    · rw [if_neg hp] at h
      by_cases hm : c = '-'
      · rw [if_pos hm] at h
        obtain ⟨a1, a2, a3⟩ := parseMagnitude_ok _ _ _ _ h
        exact ⟨['-'], rest, by simp [hm], Or.inr (Or.inr rfl), a1, a2, by simpa using a3⟩
      · rw [if_neg hm] at h
        obtain ⟨a1, a2, a3⟩ := parseMagnitude_ok _ _ _ _ h
        exact ⟨[], c :: rest, rfl, Or.inl rfl, a1, a2, by simpa using a3⟩

/-- Every signed decimal literal in the range of `int64` is accepted by `ParseInt`. -/
theorem ParseInt_of_isLiteral (v : GoString) (h : isInt64Literal v) :
    ∃ n, ParseInt v = .ok n := by
  obtain ⟨sign, ds, hv, hs, h1, h2, h3⟩ := h
  rcases hs with rfl | rfl | rfl
  · cases ds with
    | nil => exact absurd rfl h1
    | cons c rest =>
      have hc := h2 c (List.mem_cons_self _ _)
      have hp : c ≠ '+' := by rintro rfl; exact absurd hc (by decide)
      have hm : c ≠ '-' := by rintro rfl; exact absurd hc (by decide)
      subst hv
      simp only [List.nil_append, ParseInt, if_neg hp, if_neg hm]
      exact parseMagnitude_of_literal false _ _ h1 h2 (by simpa using h3)
  · subst hv
    simp only [List.singleton_append, ParseInt, if_true]
    exact parseMagnitude_of_literal false _ _ h1 h2 (by simpa using h3)
  · subst hv
    simp only [List.singleton_append, ParseInt, if_neg (show ¬ ('-' = '+') by decide), if_true]
    exact parseMagnitude_of_literal true _ _ h1 h2 (by simpa using h3)

theorem ParseInt_error_iff (v : GoString) :
    (∃ e, ParseInt v = .error e) ↔ ¬ isInt64Literal v := by
  constructor
  · rintro ⟨e, he⟩ hl
    obtain ⟨n, hn⟩ := ParseInt_of_isLiteral v hl
    rw [hn] at he
    cases he
  · intro hl
    cases hp : ParseInt v with
    | error e => exact ⟨e, rfl⟩
    | ok n => exact absurd (ParseInt_ok_isLiteral v n hp) hl

/-! ## The parsed integers are `int64` values -/

theorem parseMagnitude_value (neg : Bool) (body s0 : GoString) (n : Int)
    (h : parseMagnitude neg body s0 = .ok n) :
    n = if neg then -(digitsValue body : Int) else (digitsValue body : Int) := by
  unfold parseMagnitude at h
  split at h
  · cases h
  · split at h
    · cases h
    · split at h
      · cases h
      · cases h
        rfl

theorem ParseInt_ok_range (v : GoString) (n : Int) (h : ParseInt v = .ok n) : isInt64 n := by
  cases v with
  | nil => simp [ParseInt] at h
  | cons c rest =>
    simp only [ParseInt] at h
    split at h
    · rw [parseMagnitude_value _ _ _ _ h]
      exact (parseMagnitude_ok _ _ _ _ h).2.2
    · split at h
      · rw [parseMagnitude_value _ _ _ _ h]
        exact (parseMagnitude_ok _ _ _ _ h).2.2
      · rw [parseMagnitude_value _ _ _ _ h]
        exact (parseMagnitude_ok _ _ _ _ h).2.2

theorem setBool_inRange (s : PersistenceInfo) (v : GoString)
    (upd : PersistenceInfo → Bool → PersistenceInfo)
    (hupd : ∀ p b, inRange p → inRange (upd p b)) (h : inRange s) :
    inRange (setBool s v upd).1 := by
  unfold setBool
  cases ParseBool v with
  | error e => exact h
  | ok b => exact hupd s b h

theorem setInt_inRange (s : PersistenceInfo) (v : GoString)
    (upd : PersistenceInfo → Int → PersistenceInfo)
    (hupd : ∀ p n, inRange p → isInt64 n → inRange (upd p n)) (h : inRange s) :
    inRange (setInt s v upd).1 := by
  unfold setInt
  cases hp : ParseInt v with
  | error e => exact h
  | ok n => exact hupd s n h (ParseInt_ok_range v n hp)

theorem statusSwitch_inRange (s : PersistenceInfo) (k v : GoString) (h : inRange s) :
    inRange (statusSwitch s k v).1 := by
  unfold statusSwitch
  repeat' split
  · exact setBool_inRange s v _ (fun p b hp => hp) h
  · exact setInt_inRange s v _ (fun p n hp hn => ⟨hn, hp.2.1, hp.2.2.1, hp.2.2.2⟩) h
  · exact setBool_inRange s v _ (fun p b hp => hp) h
  · exact setBool_inRange s v _ (fun p b hp => hp) h
  · exact setBool_inRange s v _ (fun p b hp => hp) h
  · exact setInt_inRange s v _ (fun p n hp hn => ⟨hp.1, hn, hp.2.2.1, hp.2.2.2⟩) h
  · exact setInt_inRange s v _ (fun p n hp hn => ⟨hp.1, hp.2.1, hn, hp.2.2.2⟩) h
  · exact setInt_inRange s v _ (fun p n hp hn => ⟨hp.1, hp.2.1, hp.2.2.1, hn⟩) h
  · exact h

theorem getPersistenceInfo_inRange (s : PersistenceInfo) (line : GoString) (h : inRange s) :
    inRange (getPersistenceInfo s line).1 := by
  unfold getPersistenceInfo
  split
  · exact statusSwitch_inRange s _ _ h
  · exact h

theorem parseLines_inRange (ls : List GoString) (s : PersistenceInfo) (h : inRange s) :
    inRange (parseLines s ls).1 := by
  induction ls generalizing s with
  | nil => exact h
  | cons l ls ih =>
    have hl := getPersistenceInfo_inRange s l h
    rw [parseLines]
    rcases hg : getPersistenceInfo s l with ⟨s2, _ | e⟩
    · rw [hg] at hl
      exact ih s2 hl
    · rw [hg] at hl
      exact hl

/-- Every integer field of a parsed snapshot is within the range of `int64`. -/
theorem parseStatus_inRange (info : GoString) : inRange (parseStatus info).1 :=
  parseLines_inRange _ {} (by decide)

/-! ## Unrecognized and malformed lines -/

/-- C4: a line whose key is not one of the eight recognized keys, and likewise a
blank line or a line without a colon, returns no error and leaves every field
of the snapshot unchanged, whatever its value text; inserting such a line
anywhere among the lines, or anywhere in a status text (between two lines, before
the first line, after the last), changes neither the parsed snapshot nor the
error outcome. -/
theorem unrecognized_line_is_ignored (line : GoString)
    (h : ∀ k, lineKey line = some k → k ∉ recognizedKeys) :
    (∀ s, getPersistenceInfo s line = (s, none)) ∧
    (∀ s pre post, parseLines s (pre ++ line :: post) = parseLines s (pre ++ post)) ∧
    ('\n' ∉ line →
      (∀ a b, parseStatus (a ++ '\n' :: (line ++ '\n' :: b)) = parseStatus (a ++ '\n' :: b)) ∧
      (∀ b, parseStatus (line ++ '\n' :: b) = parseStatus b) ∧
      (∀ a, parseStatus (a ++ '\n' :: line) = parseStatus a)) := by
  have h1 : ∀ s, getPersistenceInfo s line = (s, none) :=
    fun s => getPersistenceInfo_ignored s line h
  refine ⟨h1, fun s pre post => parseLines_insert_noop line h1 s pre post, ?_⟩
  intro hn
  have hl : Split '\n' line = [line] := Split_of_not_mem '\n' line hn
  refine ⟨fun a b => ?_, fun b => ?_, fun a => ?_⟩
  · rw [parseStatus_eq_raw, parseStatus_eq_raw, Split_append_sep, Split_append_sep,
      Split_append_sep, hl]
    exact parseLines_insert_noop line h1 _ _ _
  · rw [parseStatus_eq_raw, parseStatus_eq_raw, Split_append_sep, hl]
    exact parseLines_insert_noop line h1 _ [] _
  · rw [parseStatus_eq_raw, parseStatus_eq_raw, Split_append_sep, hl]
    have := parseLines_insert_noop line h1 {} (Split '\n' a) []
    simpa using this

/-- Witness of C4: the line `aof_pending_rewrite:0`. -/
theorem unrecognized_line_is_ignored_witness :
    (∀ s, getPersistenceInfo s "aof_pending_rewrite:0".toList = (s, none)) ∧
    (∀ s pre post, parseLines s (pre ++ "aof_pending_rewrite:0".toList :: post)
      = parseLines s (pre ++ post)) ∧
    ('\n' ∉ "aof_pending_rewrite:0".toList →
      (∀ a b, parseStatus (a ++ '\n' :: ("aof_pending_rewrite:0".toList ++ '\n' :: b))
        = parseStatus (a ++ '\n' :: b)) ∧
      (∀ b, parseStatus ("aof_pending_rewrite:0".toList ++ '\n' :: b) = parseStatus b) ∧
      (∀ a, parseStatus (a ++ '\n' :: "aof_pending_rewrite:0".toList) = parseStatus a)) :=
  unrecognized_line_is_ignored "aof_pending_rewrite:0".toList (by
    intro k hk
    have hkey : lineKey "aof_pending_rewrite:0".toList = some "aof_pending_rewrite".toList := by
      decide
    rw [hkey] at hk
    cases hk
    decide)

theorem statusSwitch_bool_error (s : PersistenceInfo) (k v : GoString)
    (hk : k ∈ boolKeys) (hv : v ∉ boolLiterals) :
    ∃ e, statusSwitch s k v = (s, some e) := by
  obtain ⟨e, he⟩ := (ParseBool_error_iff v).mpr hv
  refine ⟨e, ?_⟩
  simp only [boolKeys, List.mem_cons, List.mem_singleton, List.not_mem_nil, or_false] at hk
  rcases hk with rfl | rfl | rfl | rfl <;> simp [statusSwitch, setBool, he]

theorem statusSwitch_int_error (s : PersistenceInfo) (k v : GoString)
    (hk : k ∈ intKeys) (hv : ¬ isInt64Literal v) :
    ∃ e, statusSwitch s k v = (s, some e) := by
  obtain ⟨e, he⟩ := (ParseInt_error_iff v).mpr hv
  refine ⟨e, ?_⟩
  simp only [intKeys, List.mem_cons, List.mem_singleton, List.not_mem_nil, or_false] at hk
  rcases hk with rfl | rfl | rfl | rfl <;> simp [statusSwitch, setInt, he]

/-- A line with a recognized key and a malformed value between the first two colons
makes `getPersistenceInfo` return an error. -/
theorem getPersistenceInfo_bad (line : GoString) (h : badLineWith lineValue line)
    (s : PersistenceInfo) : ∃ e, getPersistenceInfo s line = (s, some e) := by
  obtain ⟨k, hk, hv⟩ := h
  unfold lineKey at hk
  by_cases hc : ':' ∈ TrimSpace line
  · rw [if_pos hc] at hk
    cases hk
    rw [getPersistenceInfo_colon s line hc]
    rcases hv with ⟨hb, hv⟩ | ⟨hi, hv⟩
    · exact statusSwitch_bool_error s _ _ hb hv
    · exact statusSwitch_int_error s _ _ hi hv
  · rw [if_neg hc] at hk
    cases hk

/-- The line loop stops at a failing line: what follows it is not looked at. -/
theorem parseLines_abort (line : GoString)
    (h : ∀ s, ∃ e, getPersistenceInfo s line = (s, some e)) (s : PersistenceInfo)
    (pre post : List GoString) :
    (parseLines s (pre ++ line :: post)).2 ≠ none ∧
    parseLines s (pre ++ line :: post) = parseLines s (pre ++ [line]) := by
  rw [parseLines_append, parseLines_append]
  rcases parseLines s pre with ⟨s2, _ | e⟩
  · obtain ⟨e, he⟩ := h s2
    simp [parseLines, he]
  · simp

/-- C5 as stated fails: in the line `aof_enabled:1:x` the key is recognized and the
text after the first colon, `1:x`, is not a boolean literal, yet the value the code
parses is the piece `1` between the first two colons: no error, the field is set,
and the parse of a text with that line succeeds. -/
theorem value_after_second_colon_is_dropped :
    badLineWith lineRest "aof_enabled:1:x".toList ∧
    getPersistenceInfo {} "aof_enabled:1:x".toList = ({ AofEnabled := true }, none) ∧
    parseStatus "aof_enabled:1:x\naof_base_size:7".toList
      = ({ AofEnabled := true, AofBaseSize := 7 }, none) := by
  refine ⟨⟨"aof_enabled".toList, by decide, Or.inl ⟨by decide, by decide⟩⟩, by decide,
    by decide⟩

/-- C5, amended: with the value of a line taken as the text between the first and the
second colon of the trimmed line (up to the end of the line when there is no second
colon), a line with a recognized key whose value is not a literal of the type of the
field makes `getPersistenceInfo` return an error with the snapshot untouched; the
lines after it are not processed; and the parse of every status text that has it
as a line fails. -/
theorem malformed_value_aborts_parse (line : GoString) (h : badLineWith lineValue line) :
    (∀ s, ∃ e, getPersistenceInfo s line = (s, some e)) ∧
    (∀ s pre post, (parseLines s (pre ++ line :: post)).2 ≠ none ∧
      parseLines s (pre ++ line :: post) = parseLines s (pre ++ [line])) ∧
    (∀ info, line ∈ Split '\n' info → (parseStatus info).2 ≠ none) := by
  have h1 := getPersistenceInfo_bad line h
  refine ⟨h1, fun s pre post => parseLines_abort line h1 s pre post, ?_⟩
  intro info hmem
  obtain ⟨pre, post, hsp⟩ := List.append_of_mem hmem
  rw [parseStatus_eq_raw, hsp]
  exact (parseLines_abort line h1 {} pre post).1

/-- Witness of the amended C5: the line `aof_enabled:yes`. -/
theorem malformed_value_aborts_parse_witness :
    (∀ s, ∃ e, getPersistenceInfo s "aof_enabled:yes".toList = (s, some e)) ∧
    (∀ s pre post, (parseLines s (pre ++ "aof_enabled:yes".toList :: post)).2 ≠ none ∧
      parseLines s (pre ++ "aof_enabled:yes".toList :: post)
        = parseLines s (pre ++ ["aof_enabled:yes".toList])) ∧
    (∀ info, "aof_enabled:yes".toList ∈ Split '\n' info → (parseStatus info).2 ≠ none) :=
  malformed_value_aborts_parse "aof_enabled:yes".toList
    ⟨"aof_enabled".toList, by decide, Or.inl ⟨by decide, by decide⟩⟩

/-! ## One iteration of the gate -/

theorem growthRate_ne_none (intBits : Nat) (s : PersistenceInfo) (hb : s.AofBaseSize ≠ 0) :
    ∃ rate, growthRate intBits s = some rate := by
  simp [growthRate, div64, hb]

/-- The decision on a parsed snapshot never panics, and it is `clear` exactly on an
idle snapshot without a scheduled rewrite. -/
theorem gateDecision_cases (intBits : Nat) (s : PersistenceInfo) :
    (gateDecision intBits s = some .clear ↔
      (s.RdbBgsaveInProgress = false ∧ s.AofRewriteInProgress = false ∧
        s.AofRewriteScheduled = false)) ∧
    (gateDecision intBits s = some .clear ∨ ∃ t, gateDecision intBits s = some (.stay t)) := by
  by_cases hb : s.AofBaseSize = 0
  · cases h1 : s.RdbBgsaveInProgress <;> cases h2 : s.AofRewriteInProgress <;>
      cases h3 : s.AofRewriteScheduled <;> simp [gateDecision, h1, h2, h3, hb]
  · obtain ⟨rate, hr⟩ := growthRate_ne_none intBits s hb
    cases h1 : s.RdbBgsaveInProgress <;> cases h2 : s.AofRewriteInProgress <;>
      cases h3 : s.AofRewriteScheduled <;> simp [gateDecision, h1, h2, h3, hb, hr]

/-- C6: in an iteration of `canNext` that finds nothing on `Finish`, the gate
signals clear if and only if the query failed, or the parse of the text failed, or
the snapshot has no bgsave in progress, no rewrite in progress and no rewrite
scheduled; in every other case the iteration ends in the sleep of the loop (it
neither returns nor panics); and no iteration, whatever it finds on `Finish`,
both calls `BgRewriteAOF` and signals clear. -/
theorem gate_clear_iff (intBits : Nat) (r : QueryResult) :
    (canNextIter intBits .empty r = some .clear ↔
      (r = .failed ∨ ∃ info, r = .text info ∧ ((parseStatus info).2 ≠ none ∨
        ((parseStatus info).1.RdbBgsaveInProgress = false ∧
         (parseStatus info).1.AofRewriteInProgress = false ∧
         (parseStatus info).1.AofRewriteScheduled = false)))) ∧
    (canNextIter intBits .empty r = some .clear ∨
      ∃ t, canNextIter intBits .empty r = some (.stay t)) ∧
    (∀ fin o, canNextIter intBits fin r = some o →
      ¬ (o.signalsClear = true ∧ o.callsBgRewrite = true)) := by
  refine ⟨?_, ?_, ?_⟩
  · cases r with
    | failed => simp [canNextIter, canNextPoll]
    | text info =>
      simp only [canNextIter, canNextPoll]
      rcases hp : parseStatus info with ⟨s, _ | e⟩
      · simp [hp, (gateDecision_cases intBits s).1]
      · simp [hp]
  · cases r with
    | failed => simp [canNextIter, canNextPoll]
    | text info =>
      simp only [canNextIter, canNextPoll]
      generalize parseStatus info = p
      rcases p with ⟨s, _ | e⟩
      · exact (gateDecision_cases intBits s).2
      · simp
  · intro fin o _
    cases o with
    | stay t => simp [GateOutcome.signalsClear]
    | clear => simp [GateOutcome.callsBgRewrite]
    | stopped => simp [GateOutcome.signalsClear]
    | skipped => simp [GateOutcome.signalsClear]

/-! ## The scheduler -/

theorem statusSwitch_AofEnabled (s : PersistenceInfo) (k v : GoString)
    (hk : k ≠ "aof_enabled".toList) : (statusSwitch s k v).1.AofEnabled = s.AofEnabled := by
  unfold statusSwitch
  rw [if_neg hk]
  unfold setBool setInt
  repeat' split
  all_goals rfl

theorem getPersistenceInfo_AofEnabled (s : PersistenceInfo) (line : GoString)
    (h : lineKey line ≠ some "aof_enabled".toList) :
    (getPersistenceInfo s line).1.AofEnabled = s.AofEnabled := by
  by_cases hc : ':' ∈ TrimSpace line
  · rw [getPersistenceInfo_colon s line hc]
    apply statusSwitch_AofEnabled
    intro hk
    exact h (by simp [lineKey, hc, hk])
  · rw [getPersistenceInfo_no_colon s line hc]

theorem parseLines_AofEnabled (ls : List GoString)
    (h : ∀ l ∈ ls, lineKey l ≠ some "aof_enabled".toList) (s : PersistenceInfo) :
    (parseLines s ls).1.AofEnabled = s.AofEnabled := by
  induction ls generalizing s with
  | nil => rfl
  | cons l ls ih =>
    have hl := getPersistenceInfo_AofEnabled s l (h l (List.mem_cons_self _ _))
    rw [parseLines]
    rcases hg : getPersistenceInfo s l with ⟨s2, _ | e⟩
    · rw [hg] at hl
      simp only
      rw [ih (fun l2 h2 => h l2 (List.mem_cons_of_mem _ h2)) s2]
      exact hl
    · rw [hg] at hl
      exact hl

/-- C7: when the scheduler is at a client of the list whose status query succeeds
with a text that parses, and the snapshot has `AofEnabled = false` (as it has when
no line of the text has the key `aof_enabled`), the check ends in `continue`: the
step of the scheduler leads to the next client of the list, starts no gate, does
not wait on `IsNext`, and calls no `BgRewriteAOF`. -/
theorem disabled_client_is_skipped (n intBits : Nat) (s : Sys) (i : Nat) (info : GoString)
    (hs : s.sched = .client i) (hi : i < n) (hok : (parseStatus info).2 = none)
    (hdis : (parseStatus info).1.AofEnabled = false ∨
      ∀ l ∈ statusLines info, lineKey l ≠ some "aof_enabled".toList) :
    canWriteAofCheck (.text info) = .skip ∧
    step n intBits s (.sched (.text info)) = some { s with sched := .client (i + 1) } := by
  have hen : (parseStatus info).1.AofEnabled = false := by
    rcases hdis with h | h
    · exact h
    · exact parseLines_AofEnabled _ h {}
  have hc : canWriteAofCheck (.text info) = .skip := by
    rcases hp : parseStatus info with ⟨p, _ | e⟩
    · rw [hp] at hen
      simp only at hen
      simp [canWriteAofCheck, hp, hen]
    · rw [hp] at hok
      cases hok
  exact ⟨hc, by simp [step, CheckCanWriteAofStep, hs, hi, hc]⟩

/-- Witness of C7: the second of three clients answers with a text without an
`aof_enabled` line. -/
theorem disabled_client_is_skipped_witness :
    canWriteAofCheck (.text "aof_rewrite_in_progress:1\naof_base_size:10".toList) = .skip ∧
    step 3 64 { sched := .client 1 }
        (.sched (.text "aof_rewrite_in_progress:1\naof_base_size:10".toList))
      = some { ({ sched := .client 1 } : Sys) with sched := .client (1 + 1) } :=
  disabled_client_is_skipped 3 64 { sched := .client 1 } 1
    "aof_rewrite_in_progress:1\naof_base_size:10".toList rfl (by decide) (by decide)
    (Or.inr (by decide))

/-! ## The one-gate discipline -/

theorem gates_single (gs : List Gate) (k : Nat) (g : Gate) (hl : gs.length ≤ 1)
    (hg : gs.get? k = some g) : gs = [g] ∧ k = 0 := by
  match gs, k with
  | [], _ => simp at hg
  | [x], 0 => simp at hg; simp [hg]
  | [x], k + 1 => simp at hg
  | x :: y :: ys, _ => simp at hl

theorem Inv_init : Inv {} := by
  simp [Inv]

theorem Inv_schedStep (n : Nat) (s s2 : Sys) (r : QueryResult) (h : Inv s)
    (hs : CheckCanWriteAofStep n s r = some s2) : Inv s2 := by
  obtain ⟨h1, h2, h3, h4, h5⟩ := h
  unfold CheckCanWriteAofStep at hs
  cases hpc : s.sched with
  | select =>
    have hg : s.gates = [] := by
      cases hgs : s.gates with
      | nil => rfl
      | cons g gs =>
        have := h2 g (by simp [hgs])
        rw [hpc] at this
        cases this
    rw [hpc] at hs
    simp only at hs
    split at hs <;> cases hs <;> simp [Inv, hg, h3]
  | client i =>
    have hg : s.gates = [] := by
      cases hgs : s.gates with
      | nil => rfl
      | cons g gs =>
        have := h2 g (by simp [hgs])
        rw [hpc] at this
        cases this
    have h4i := h4 i hpc
    rw [hpc] at hs
    simp only at hs
    split at hs
    · split at hs
      · cases hs
        simp [Inv, hg, h3]
      · cases hs
        refine ⟨by simp [hg], by simp [hg], h3, ?_, by simp⟩
        intro i2 hi2 j hj
        simp only [SchedPc.client.injEq] at hi2
        have := h4i j hj
        exact ⟨by omega, this.2⟩
      · cases hs
        refine ⟨by simp [hg], by simp [hg], ?_, by simp, ?_⟩
        · exact List.pairwise_cons.mpr ⟨fun j hj => (h4i j hj).1, h3⟩
        · intro i2 hi2
          simp only [SchedPc.waiting.injEq] at hi2
          subst hi2
          exact ⟨s.opened, rfl, h4i⟩
    · cases hs
      simp [Inv, hg, h3]
  | sleeping =>
    have hg : s.gates = [] := by
      cases hgs : s.gates with
      | nil => rfl
      | cons g gs =>
        have := h2 g (by simp [hgs])
        rw [hpc] at this
        cases this
    rw [hpc] at hs
    cases hs
    simp [Inv, hg, h3]
  | waiting i => rw [hpc] at hs; cases hs
  | returned => rw [hpc] at hs; cases hs

theorem Inv_gateStep (intBits : Nat) (s s2 : Sys) (k : Nat) (r : QueryResult) (h : Inv s)
    (hs : canNextStep intBits s k r = some s2) : Inv s2 := by
  obtain ⟨h1, h2, h3, h4, h5⟩ := h
  unfold canNextStep at hs
  cases hg : s.gates.get? k with
  | none => rw [hg] at hs; cases hs
  | some g =>
    obtain ⟨c, pc⟩ := g
    obtain ⟨hgs, hk⟩ := gates_single s.gates k _ h1 hg
    subst hk
    have hw := h2 ⟨c, pc⟩ (by simp [hgs])
    rw [hg] at hs
    cases pc with
    | sending => cases hs
    | polling =>
      simp only at hs
      cases ho : canNextIter intBits (if s.finishClosed = true then .closed else .empty) r with
      | none => rw [ho] at hs; cases hs
      | some o =>
        rw [ho] at hs
        cases o with
        | stopped =>
          cases hs
          exact ⟨by simp [hgs], by simp [hgs], h3, h4, h5⟩
        | skipped =>
          cases hs
          exact ⟨h1, h2, h3, h4, h5⟩
        | clear =>
          cases hs
          refine ⟨by simp [hgs], ?_, h3, h4, h5⟩
          intro g2 hg2
          simp only [hgs, List.set_cons_zero, List.mem_singleton] at hg2
          subst hg2
          exact hw
        | stay t =>
          cases hs
          exact ⟨h1, h2, h3, h4, h5⟩

theorem Inv_handoffStep (s s2 : Sys) (k : Nat) (h : Inv s)
    (hs : handoffStep s k = some s2) : Inv s2 := by
  obtain ⟨h1, h2, h3, h4, h5⟩ := h
  unfold handoffStep at hs
  cases hpc : s.sched with
  | waiting i =>
    cases hg : s.gates.get? k with
    | none => rw [hpc, hg] at hs; cases hs
    | some g =>
      obtain ⟨c, pc⟩ := g
      obtain ⟨hgs, hk⟩ := gates_single s.gates k _ h1 hg
      subst hk
      have hw := h2 ⟨c, pc⟩ (by simp [hgs])
      rw [hpc] at hw
      simp only [SchedPc.waiting.injEq] at hw
      subst hw
      rw [hpc, hg] at hs
      cases pc with
      | polling => cases hs
      | sending =>
        cases hs
        obtain ⟨rest, hop, hrest⟩ := h5 i hpc
        refine ⟨by simp [hgs], by simp [hgs], h3, ?_, by simp⟩
        intro i2 hi2 j hj
        simp only [SchedPc.client.injEq] at hi2
        subst hi2
        simp only [hop, List.mem_cons] at hj
        rcases hj with rfl | hj
        · exact ⟨by omega, by simp⟩
        · have := hrest j hj
          exact ⟨by omega, by simp [this.2]⟩
  | select => rw [hpc] at hs; cases hs
  | client i => rw [hpc] at hs; cases hs
  | sleeping => rw [hpc] at hs; cases hs
  | returned => rw [hpc] at hs; cases hs

theorem Inv_step (n intBits : Nat) (s s2 : Sys) (a : Action) (h : Inv s)
    (hs : step n intBits s a = some s2) : Inv s2 := by
  cases a with
  | closeFinish =>
    simp only [step] at hs
    split at hs
    · cases hs
    · cases hs
      exact h
  | sched r => exact Inv_schedStep n s s2 r h hs
  | gate k r => exact Inv_gateStep intBits s s2 k r h hs
  | handoff k => exact Inv_handoffStep s s2 k h hs

theorem Inv_of_reachable (n intBits : Nat) (s : Sys) (h : Reachable n intBits s) : Inv s := by
  induction h with
  | init => exact Inv_init
  | next s s2 a _ hs ih => exact Inv_step n intBits s s2 a ih hs

/-- Only a step of the scheduler at the head of its loop adds a gate. -/
theorem gate_added_only_by_sched (n intBits : Nat) (s s2 : Sys) (a : Action)
    (hs : step n intBits s a = some s2) (hlen : s.gates.length < s2.gates.length) :
    ∃ j r, a = .sched r ∧ s.sched = .client j ∧ j < n ∧ s2.sched = .waiting j ∧
      s2.gates = s.gates ++ [⟨j, .polling⟩] ∧ s2.opened = j :: s.opened ∧
      s2.cleared = s.cleared := by
  cases a with
  | closeFinish =>
    simp only [step] at hs
    split at hs
    · cases hs
    · cases hs
      simp at hlen
  | sched r =>
    simp only [step, CheckCanWriteAofStep] at hs
    cases hpc : s.sched with
    | select => rw [hpc] at hs; simp only at hs; split at hs <;> cases hs <;> simp at hlen
    | client i =>
      rw [hpc] at hs
      simp only at hs
      split at hs
      · rename_i hi
        split at hs
        · cases hs; simp at hlen
        · cases hs; simp at hlen
        · cases hs
          exact ⟨i, r, rfl, rfl, hi, rfl, rfl, rfl, rfl⟩
      · cases hs; simp at hlen
    | sleeping => rw [hpc] at hs; cases hs; simp at hlen
    | waiting i => rw [hpc] at hs; cases hs
    | returned => rw [hpc] at hs; cases hs
  | gate k r =>
    simp only [step, canNextStep] at hs
    split at hs
    · split at hs
      · cases hs
      · cases hs
        simp only [List.length_eraseIdx] at hlen
        split at hlen <;> omega
      · cases hs; simp at hlen
      · cases hs; simp at hlen
      · cases hs; simp at hlen
    · cases hs
  | handoff k =>
    simp only [step, handoffStep] at hs
    split at hs
    · cases hs
      simp only [List.length_eraseIdx] at hlen
      split at hlen <;> omega
    · cases hs

/-- C8: in every reachable state at most one gate is open; the gates of a pass were
opened in increasing order of the client list; and whenever a step starts a gate,
it is the scheduler that starts it, for the client `j` it has reached, no other
gate is open, and every gate opened earlier in the pass is for a client before
`j` and has signalled clear on `IsNext`. -/
theorem one_gate_at_a_time (n intBits : Nat) (s : Sys) (hr : Reachable n intBits s) :
    s.gates.length ≤ 1 ∧
    s.opened.Pairwise (· > ·) ∧
    (∀ a s2, step n intBits s a = some s2 → s.gates.length < s2.gates.length →
      ∃ j, s.sched = .client j ∧ s.gates = [] ∧ s2.gates = [⟨j, .polling⟩] ∧
        s2.opened = j :: s.opened ∧ ∀ i ∈ s.opened, i < j ∧ i ∈ s.cleared) := by
  obtain ⟨h1, h2, h3, h4, h5⟩ := Inv_of_reachable n intBits s hr
  refine ⟨h1, h3, ?_⟩
  intro a s2 hs hlen
  obtain ⟨j, r, _, hpc, _, _, hg2, hop, _⟩ := gate_added_only_by_sched n intBits s s2 a hs hlen
  have hg : s.gates = [] := by
    cases hgs : s.gates with
    | nil => rfl
    | cons g gs =>
      have := h2 g (by simp [hgs])
      rw [hpc] at this
      cases this
  exact ⟨j, hpc, hg, by simp [hg2, hg], hop, h4 j hpc⟩

/-- Witness of C8: with three clients, the state in which the gate of the first
client is open and the scheduler waits for it. -/
theorem one_gate_at_a_time_witness :
    waitingFirst.gates.length ≤ 1 ∧
    waitingFirst.opened.Pairwise (· > ·) ∧
    (∀ a s2, step 3 64 waitingFirst a = some s2 →
      waitingFirst.gates.length < s2.gates.length →
      ∃ j, waitingFirst.sched = .client j ∧ waitingFirst.gates = [] ∧
        s2.gates = [⟨j, .polling⟩] ∧ s2.opened = j :: waitingFirst.opened ∧
        ∀ i ∈ waitingFirst.opened, i < j ∧ i ∈ waitingFirst.cleared) :=
  one_gate_at_a_time 3 64 waitingFirst
    (Reachable.next { sched := .client 0 } _ (.sched (.text "aof_enabled:1".toList))
      (Reachable.next {} _ (.sched .failed) Reachable.init (by decide)) (by decide))

/-! ## Closing `Finish` -/

/-- C9, evaluated on the code: with one client whose gate is open (a rewrite is in
progress), `Finish` is closed; the gate returns at its next iteration without a
send on `IsNext`, and the scheduler is left blocked in `<-aof.IsNext`: the state
`stranded` is reached, in it `Finish` is closed, no gate is open, the scheduler has
not returned, and no step is possible any more. -/
theorem finish_close_strands_scheduler :
    run 1 64 {}
      [.sched .failed,
       .sched (.text "aof_enabled:1\naof_rewrite_in_progress:1".toList),
       .gate 0 (.text "aof_enabled:1\naof_rewrite_in_progress:1".toList),
       .closeFinish,
       .gate 0 (.text "aof_enabled:1\naof_rewrite_in_progress:1".toList)] = some stranded ∧
    Reachable 1 64 stranded ∧
    stranded.finishClosed = true ∧ stranded.gates = [] ∧ stranded.sched = .waiting 0 ∧
    (∀ a, step 1 64 stranded a = none) := by
  have hrun : run 1 64 {}
      [.sched .failed,
       .sched (.text "aof_enabled:1\naof_rewrite_in_progress:1".toList),
       .gate 0 (.text "aof_enabled:1\naof_rewrite_in_progress:1".toList),
       .closeFinish,
       .gate 0 (.text "aof_enabled:1\naof_rewrite_in_progress:1".toList)] = some stranded := by
    decide
  refine ⟨hrun, ?_, rfl, rfl, rfl, ?_⟩
  · refine Reachable.next _ _ (.gate 0 (.text "aof_enabled:1\naof_rewrite_in_progress:1".toList))
      (Reachable.next _ _ .closeFinish
        (Reachable.next _ _ (.gate 0 (.text "aof_enabled:1\naof_rewrite_in_progress:1".toList))
          (Reachable.next _ _ (.sched (.text "aof_enabled:1\naof_rewrite_in_progress:1".toList))
            (Reachable.next {} { sched := .client 0 } (.sched .failed) Reachable.init
              (by decide))
            (?_ : _ = some { sched := .waiting 0, gates := [⟨0, .polling⟩], opened := [0] }))
          (?_ : _ = some { sched := .waiting 0, gates := [⟨0, .polling⟩], opened := [0] }))
        (?_ : _ = some { finishClosed := true, sched := .waiting 0, gates := [⟨0, .polling⟩],
                         opened := [0] }))
      (?_ : _ = some stranded) <;> decide
  · intro a
    cases a <;> simp [step, CheckCanWriteAofStep, canNextStep, handoffStep, stranded]


end RedisAof
